import Mathlib

/-
Verification development for the tiptap-markdown repository.

Strings are modelled as `List Char` (JavaScript strings indexed by code
units; all inputs of interest are ASCII).  Positions are `Int`, as in the
source, and the clamping/swapping semantics of JavaScript's
`String.prototype.substring` is modelled by `jsSubstring`.

Part 1 embeds `src/util/markdown.js`: `isPunctuation`,
`canDelimiterBeUsed`, `shiftDelim`, `trimStart`, `trimEnd`, `trimInline`.
The `while` loops of `trimStart`/`trimEnd` carry an explicit iteration
counter bounded by `maxIterations = to - from` in the source; they are
embedded as fuel recursion with fuel `(to - from).toNat`, which is exactly
the source's bound, together with the `iterations` counter the source
keeps.  The source fields `from`/`to` are Lean keywords and are named
`fromPos`/`toPos` here.
-/

namespace TiptapMarkdown

/-- Fast punctuation check of src/util/markdown.js (`isPunctuation`):
ASCII punctuation ranges by character code. -/
def isPunctuation (charCode : Nat) : Bool :=
  (33 ≤ charCode && charCode ≤ 47) ||
  (58 ≤ charCode && charCode ≤ 64) ||
  (91 ≤ charCode && charCode ≤ 96) ||
  (123 ≤ charCode && charCode ≤ 126)

/-- JavaScript `String.prototype.substring` index clamping: negative
indices become 0, indices past the end become the length. -/
def jsClamp (n : Nat) (x : Int) : Nat := min x.toNat n

/-- JavaScript `text.substring(a, b)`: clamp both indices to `[0, length]`
and swap them when `a > b`. -/
def jsSubstring (s : List Char) (a b : Int) : List Char :=
  let a2 := jsClamp s.length a
  let b2 := jsClamp s.length b
  (s.take (max a2 b2)).drop (min a2 b2)

/-- JavaScript `text.substring(a)` = `text.substring(a, text.length)`. -/
def jsSubstringFrom (s : List Char) (a : Int) : List Char :=
  jsSubstring s a (s.length : Int)

/-- `canDelimiterBeUsed(text, pos, isOpening)` of src/util/markdown.js:
the combined CommonMark left/right flanking test.  Out-of-range positions
return false; position 0 is decided by `isOpening` alone and the last
position by `!isOpening` alone; otherwise the adjacent character codes are
classified as whitespace (code <= 32) or ASCII punctuation. -/
def canDelimiterBeUsed (text : List Char) (pos : Int) (isOpening : Bool) : Bool :=
  if text.length = 0 ∨ pos < 0 ∨ (text.length : Int) ≤ pos then false
  else if pos = 0 then isOpening
  else if pos = (text.length : Int) - 1 then !isOpening
  else
    let prevCharCode := (text.getD (pos - 1).toNat ' ').toNat
    let nextCharCode := (text.getD (pos + 1).toNat ' ').toNat
    let isPrevWhitespace : Bool := decide (prevCharCode ≤ 32)
    let isNextWhitespace : Bool := decide (nextCharCode ≤ 32)
    let isPrevPunctuation := isPunctuation prevCharCode
    let isNextPunctuation := isPunctuation nextCharCode
    if isOpening then
      !isNextWhitespace && (!isNextPunctuation || isPrevWhitespace || isPrevPunctuation)
    else
      !isPrevWhitespace && (!isPrevPunctuation || isNextWhitespace || isNextPunctuation)

/-- `shiftDelim(text, delim, start, offset)` of src/util/markdown.js, the
single-expression splice:
`text.substring(0, start) + text.substring(start + delim.length, start + offset)
 + delim + text.substring(start + offset)`. -/
def shiftDelim (text delim : List Char) (start offset : Int) : List Char :=
  jsSubstring text 0 start ++
  jsSubstring text (start + (delim.length : Int)) (start + offset) ++
  delim ++
  jsSubstringFrom text (start + offset)

/-- The delete-then-reinsert contract of the specification (section 4.2)
for the delimiter shifter, which is also literally the `shiftDelim` of the
other copy of this module in the repository (src/unnamed/part_000):
first remove the `delim.length` characters at `start`, then insert `delim`
at position `start + offset` of the shortened string. -/
def shiftDelimSpec (text delim : List Char) (start offset : Int) : List Char :=
  let res := jsSubstring text 0 start ++ jsSubstringFrom text (start + (delim.length : Int))
  jsSubstring res 0 (start + offset) ++ delim ++ jsSubstringFrom res (start + offset)

/-- State record `{ text, from, to }` returned by `trimStart`/`trimEnd`
(fields renamed `fromPos`/`toPos`: `from` is a Lean keyword). -/
structure TrimState where
  text : List Char
  fromPos : Int
  toPos : Int
deriving DecidableEq, Repr

/-- The `while` loop of `trimStart`: walk `pos` forward while the position
is not a legal opening boundary, shifting the delimiter right by one each
step; the fuel argument is the source's `maxIterations` bound and the last
component counts the source's `iterations` variable (one per shift). -/
def trimStartLoop (delim : List Char) (toPos : Int) :
    Nat → List Char → Int → Nat → List Char × Int × Nat
  | 0, res, pos, iterations => (res, pos, iterations)
  | fuel + 1, res, pos, iterations =>
    if pos < toPos then
      if canDelimiterBeUsed res pos true then (res, pos, iterations)
      else trimStartLoop delim toPos fuel (shiftDelim res delim pos 1) (pos + 1) (iterations + 1)
    else (res, pos, iterations)

/-- The `while` loop of `trimEnd`: walk `pos` backward while the position
is not a legal closing boundary, shifting the delimiter left by one each
step. -/
def trimEndLoop (delim : List Char) (fromPos : Int) :
    Nat → List Char → Int → Nat → List Char × Int × Nat
  | 0, res, pos, iterations => (res, pos, iterations)
  | fuel + 1, res, pos, iterations =>
    if fromPos < pos then
      if canDelimiterBeUsed res pos false then (res, pos, iterations)
      else trimEndLoop delim fromPos fuel (shiftDelim res delim pos (-1)) (pos - 1) (iterations + 1)
    else (res, pos, iterations)

/-- `trimStart(text, delim, from, to)` body: early return when
`from >= to`, otherwise run the loop with `maxIterations = to - from`.
Returns the final text, the final `pos` and the iteration count. -/
def trimStartRun (text delim : List Char) (fromPos toPos : Int) : List Char × Int × Nat :=
  if toPos ≤ fromPos then (text, fromPos, 0)
  else trimStartLoop delim toPos (toPos - fromPos).toNat text fromPos 0

/-- `trimStart` of src/util/markdown.js: returns `{ text: res, from: pos, to }`. -/
def trimStart (text delim : List Char) (fromPos toPos : Int) : TrimState :=
  let r := trimStartRun text delim fromPos toPos
  ⟨r.1, r.2.1, toPos⟩

/-- Number of delimiter shifts the start pass performs (the source's
`iterations` counter on exit). -/
def trimStartShifts (text delim : List Char) (fromPos toPos : Int) : Nat :=
  (trimStartRun text delim fromPos toPos).2.2

/-- `trimEnd(text, delim, from, to)` body: early return when `from >= to`,
otherwise run the loop with `maxIterations = to - from`. -/
def trimEndRun (text delim : List Char) (fromPos toPos : Int) : List Char × Int × Nat :=
  if toPos ≤ fromPos then (text, toPos, 0)
  else trimEndLoop delim fromPos (toPos - fromPos).toNat text toPos 0

/-- `trimEnd` of src/util/markdown.js: returns `{ text: res, from, to: pos }`. -/
def trimEnd (text delim : List Char) (fromPos toPos : Int) : TrimState :=
  let r := trimEndRun text delim fromPos toPos
  ⟨r.1, fromPos, r.2.1⟩

/-- Number of delimiter shifts the end pass performs. -/
def trimEndShifts (text delim : List Char) (fromPos toPos : Int) : Nat :=
  (trimEndRun text delim fromPos toPos).2.2

/-- The two passes of `trimInline` in order: start pass then end pass on
its output state. -/
def trimPasses (text delim : List Char) (fromPos toPos : Int) : TrimState :=
  let s1 := trimStart text delim fromPos toPos
  trimEnd s1.text delim s1.fromPos s1.toPos

/-- `trimInline(text, delim, from, to)` of src/util/markdown.js: the guard
`!text || from < 0 || to >= text.length || from >= to` returns the text
unchanged; otherwise both passes run and, when the trimmed span width
`to' - from'` is below `delim.length + 1`, the span from `from'` up to and
including the closing delimiter at `to'` is deleted.  The source's
`try`/`catch` is dead in this model: every operation is total. -/
def trimInline (text delim : List Char) (fromPos toPos : Int) : List Char :=
  if text.length = 0 ∨ fromPos < 0 ∨ (text.length : Int) ≤ toPos ∨ toPos ≤ fromPos then text
  else
    let st := trimPasses text delim fromPos toPos
    if st.toPos - st.fromPos < (delim.length : Int) + 1 then
      jsSubstring st.text 0 st.fromPos ++ jsSubstringFrom st.text (st.toPos + (delim.length : Int))
    else st.text

/-! Loop lemmas for the trim passes. -/

/-- The start-pass loop only moves `pos` forward, never past `toPos`, and
performs at most `fuel` further iterations. -/
theorem trimStartLoop_le (delim : List Char) (toPos : Int) (fuel : Nat) :
    ∀ (res : List Char) (pos : Int) (n : Nat),
      pos ≤ (trimStartLoop delim toPos fuel res pos n).2.1 ∧
      (trimStartLoop delim toPos fuel res pos n).2.2 ≤ n + fuel ∧
      (pos ≤ toPos → (trimStartLoop delim toPos fuel res pos n).2.1 ≤ toPos) := by
  induction fuel with
  | zero =>
      intro res pos n
      simp [trimStartLoop]
  | succ fuel ih =>
      intro res pos n
      rw [trimStartLoop]
      by_cases h1 : pos < toPos
      · rw [if_pos h1]
        by_cases h2 : canDelimiterBeUsed res pos true = true
        · rw [if_pos h2]
          exact ⟨le_refl _, by simp, fun _ => le_of_lt h1⟩
        · rw [if_neg h2]
          obtain ⟨a, b, c⟩ := ih (shiftDelim res delim pos 1) (pos + 1) (n + 1)
          exact ⟨by omega, by omega, fun _ => c (by omega)⟩
      · rw [if_neg h1]
        exact ⟨le_refl _, by simp, fun h => h⟩

/-- The end-pass loop only moves `pos` backward, never below `fromPos`, and
performs at most `fuel` further iterations. -/
theorem trimEndLoop_le (delim : List Char) (fromPos : Int) (fuel : Nat) :
    ∀ (res : List Char) (pos : Int) (n : Nat),
      (trimEndLoop delim fromPos fuel res pos n).2.1 ≤ pos ∧
      (trimEndLoop delim fromPos fuel res pos n).2.2 ≤ n + fuel ∧
      (fromPos ≤ pos → fromPos ≤ (trimEndLoop delim fromPos fuel res pos n).2.1) := by
  induction fuel with
  | zero =>
      intro res pos n
      simp [trimEndLoop]
  | succ fuel ih =>
      intro res pos n
      rw [trimEndLoop]
      by_cases h1 : fromPos < pos
      · rw [if_pos h1]
        by_cases h2 : canDelimiterBeUsed res pos false = true
        · rw [if_pos h2]
          exact ⟨le_refl _, by simp, fun h => h⟩
        · rw [if_neg h2]
          obtain ⟨a, b, c⟩ := ih (shiftDelim res delim pos (-1)) (pos - 1) (n + 1)
          exact ⟨by omega, by omega, fun _ => c (by omega)⟩
      · rw [if_neg h1]
        exact ⟨le_refl _, by simp, fun h => h⟩

/-- The start pass leaves `toPos` unchanged and moves `fromPos` forward,
staying at most at `toPos`. -/
theorem trimStart_fromPos_bounds (text delim : List Char) (f t : Int) :
    f ≤ (trimStart text delim f t).fromPos ∧
    (trimStart text delim f t).toPos = t ∧
    (f ≤ t → (trimStart text delim f t).fromPos ≤ t) := by
  unfold trimStart trimStartRun
  by_cases h : t ≤ f
  · rw [if_pos h]
    exact ⟨le_refl _, rfl, fun h2 => by simpa using h2⟩
  · rw [if_neg h]
    obtain ⟨a, b, c⟩ := trimStartLoop_le delim t (t - f).toNat text f 0
    exact ⟨a, rfl, fun _ => c (by omega)⟩

/-- C1: the claim states that `shiftDelim(text, delim, start, offset)` equals
deleting the `delim.length` characters at `start` and reinserting `delim` at
position `start + offset` of the shortened string.  The code diverges: at
`text = "*ab"`, `delim = "*"`, `start = 0`, `offset = 1` (the token `"*"`
does occur at offset 0) the code returns `"*ab"` unchanged while the claimed
delete-then-reinsert semantics gives `"a*b"`. -/
theorem shiftDelim_diverges_from_spec :
    jsSubstring ("*ab".data) 0 1 = "*".data ∧
    shiftDelim ("*ab".data) ("*".data) 0 1 = "*ab".data ∧
    shiftDelimSpec ("*ab".data) ("*".data) 0 1 = "a*b".data ∧
    shiftDelim ("*ab".data) ("*".data) 0 1 ≠ shiftDelimSpec ("*ab".data) ("*".data) 0 1 := by
  decide

/-- C3: for a string of length at least 2, position 0 is always a legal
opening boundary and never a legal closing one, and the last position is
always a legal closing boundary and never a legal opening one, independent
of the adjacent characters. -/
theorem canDelimiterBeUsed_boundary (text : List Char) (h : 2 ≤ text.length) :
    canDelimiterBeUsed text 0 true = true ∧
    canDelimiterBeUsed text 0 false = false ∧
    canDelimiterBeUsed text ((text.length : Int) - 1) false = true ∧
    canDelimiterBeUsed text ((text.length : Int) - 1) true = false := by
  have h0 : ¬(text.length = 0 ∨ (0 : Int) < 0 ∨ (text.length : Int) ≤ 0) := by omega
  have hA : ¬(text.length = 0 ∨ (text.length : Int) - 1 < 0 ∨
      (text.length : Int) ≤ (text.length : Int) - 1) := by omega
  have hB : ¬((text.length : Int) - 1 = 0) := by omega
  refine ⟨?_, ?_, ?_, ?_⟩
  · rw [canDelimiterBeUsed, if_neg h0, if_pos rfl]
  · rw [canDelimiterBeUsed, if_neg h0, if_pos rfl]
  · rw [canDelimiterBeUsed, if_neg hA, if_neg hB, if_pos rfl]
    rfl
  · rw [canDelimiterBeUsed, if_neg hA, if_neg hB, if_pos rfl]
    rfl

/-- Witness for C3 at the concrete string "ab". -/
theorem canDelimiterBeUsed_boundary_witness :
    canDelimiterBeUsed ("ab".data) 0 true = true ∧
    canDelimiterBeUsed ("ab".data) 0 false = false ∧
    canDelimiterBeUsed ("ab".data) ((("ab".data).length : Int) - 1) false = true ∧
    canDelimiterBeUsed ("ab".data) ((("ab".data).length : Int) - 1) true = false :=
  canDelimiterBeUsed_boundary ("ab".data) (by decide)

/-- C4: on bounds accepted by `trimInline`'s guard, when the two passes end
with a trimmed span of width below `delim.length + 1`, the result is the
pass-output text with the characters from `from'` up to and including the
closing delimiter at `to'` removed (so neither delimiter token of the span
nor the wrapped content survives). -/
theorem trimInline_collapse (text delim : List Char) (f t : Int)
    (h1 : text.length ≠ 0) (h2 : 0 ≤ f) (h3 : t < (text.length : Int)) (h4 : f < t)
    (h5 : (trimPasses text delim f t).toPos - (trimPasses text delim f t).fromPos <
      (delim.length : Int) + 1) :
    trimInline text delim f t =
      jsSubstring (trimPasses text delim f t).text 0 (trimPasses text delim f t).fromPos ++
      jsSubstringFrom (trimPasses text delim f t).text
        ((trimPasses text delim f t).toPos + (delim.length : Int)) := by
  have hg : ¬(text.length = 0 ∨ f < 0 ∨ (text.length : Int) ≤ t ∨ t ≤ f) := by omega
  simp only [trimInline]
  rw [if_neg hg, if_pos h5]

/-- Witness for C4 at text "**", delim "*", from 0, to 1: the span collapses
and the whole delimiter pair is removed, leaving the empty string. -/
theorem trimInline_collapse_witness :
    trimInline ("**".data) ("*".data) 0 1 =
      jsSubstring (trimPasses ("**".data) ("*".data) 0 1).text 0
        (trimPasses ("**".data) ("*".data) 0 1).fromPos ++
      jsSubstringFrom (trimPasses ("**".data) ("*".data) 0 1).text
        ((trimPasses ("**".data) ("*".data) 0 1).toPos + (("*".data).length : Int)) :=
  trimInline_collapse ("**".data) ("*".data) 0 1 (by decide) (by decide) (by decide)
    (by decide) (by decide)

/-- C5: `trimInline` is a total function (it terminates on every input; the
source bounds each pass by `maxIterations = to - from`), and with
`0 <= from <= to <= length text` the start pass and the end pass it runs
each perform at most `to - from` delimiter shifts, hence at most
`length text` shifts. -/
theorem trim_passes_shift_bound (text delim : List Char) (f t : Int)
    (h2 : 0 ≤ f) (h4 : f ≤ t) (h5 : t ≤ (text.length : Int)) :
    ((trimStartShifts text delim f t : Int) ≤ t - f ∧
      trimStartShifts text delim f t ≤ text.length) ∧
    ((trimEndShifts (trimStart text delim f t).text delim
        (trimStart text delim f t).fromPos (trimStart text delim f t).toPos : Int) ≤ t - f ∧
      trimEndShifts (trimStart text delim f t).text delim
        (trimStart text delim f t).fromPos (trimStart text delim f t).toPos ≤ text.length) := by
  obtain ⟨hf1, hto, hf2⟩ := trimStart_fromPos_bounds text delim f t
  constructor
  · unfold trimStartShifts trimStartRun
    by_cases h : t ≤ f
    · rw [if_pos h]
      constructor
      · simp; omega
      · simp
    · rw [if_neg h]
      obtain ⟨_, b, _⟩ := trimStartLoop_le delim t (t - f).toNat text f 0
      constructor
      · have : ((t - f).toNat : Int) = t - f := by omega
        omega
      · omega
  · unfold trimEndShifts trimEndRun
    set f2 := (trimStart text delim f t).fromPos with hf2def
    rw [hto]
    by_cases h : t ≤ f2
    · rw [if_pos h]
      constructor
      · simp; omega
      · simp
    · rw [if_neg h]
      obtain ⟨_, b, _⟩ := trimEndLoop_le delim f2 (t - f2).toNat (trimStart text delim f t).text t 0
      constructor
      · have : ((t - f2).toNat : Int) = t - f2 := by omega
        omega
      · omega

/-- Witness for C5 at text "a b", delim "*", from 0, to 3. -/
theorem trim_passes_shift_bound_witness :
    ((trimStartShifts ("a b".data) ("*".data) 0 3 : Int) ≤ 3 - 0 ∧
      trimStartShifts ("a b".data) ("*".data) 0 3 ≤ ("a b".data).length) ∧
    ((trimEndShifts (trimStart ("a b".data) ("*".data) 0 3).text ("*".data)
        (trimStart ("a b".data) ("*".data) 0 3).fromPos
        (trimStart ("a b".data) ("*".data) 0 3).toPos : Int) ≤ 3 - 0 ∧
      trimEndShifts (trimStart ("a b".data) ("*".data) 0 3).text ("*".data)
        (trimStart ("a b".data) ("*".data) 0 3).fromPos
        (trimStart ("a b".data) ("*".data) 0 3).toPos ≤ ("a b".data).length) :=
  trim_passes_shift_bound ("a b".data) ("*".data) 0 3 (by decide) (by decide) (by decide)

/-!
Part 2 embeds `src/parse/MarkdownParser.js`.  The markup tree (DOM) is the
ordered tree of the specification's data model: element nodes carrying a
tag and children, and text leaves.  The DOM helpers of `src/util/dom.js`
(`elementFromString`, `unwrapElement`) and the schema-derived block
extraction helper (`extractElement`) are not among the staged source
files; they are modelled from the spec where marked below.  The external
renderer (`marked`) stays abstract: `parse` takes the render functions as
data, with `Except Unit` modelling a thrown exception.
-/

/-- Markup tree node: element with tag and ordered children, or text leaf. -/
inductive Dom where
  | el : String → List Dom → Dom
  | txt : List Char → Dom

mutual

/-- Serialization of one node to markup text (opening tag, serialized
children, closing tag; text leaves verbatim). -/
def serializeNode : Dom → List Char
  | .txt s => s
  | .el tag children =>
      '<' :: tag.data ++ '>' :: serializeList children ++ '<' :: '/' :: tag.data ++ ['>']

/-- Serialization of a list of sibling nodes. -/
def serializeList : List Dom → List Char
  | [] => []
  | d :: ds => serializeNode d ++ serializeList ds

end

/-- `element.innerHTML` read: the serialized children of a node. -/
def innerHTML : Dom → List Char
  | .el _ children => serializeList children
  | .txt s => s

/-- Tag-name reader for the markup parser: characters up to the next `>`,
and the rest after that `>`. -/
def readTagName (cs : List Char) : String × List Char :=
  (String.mk (cs.takeWhile (fun c => c ≠ '>')), (cs.dropWhile (fun c => c ≠ '>')).drop 1)

/-- Modelled from the spec: `elementFromString` of `src/util/dom.js` is not
among the staged source files.  This is the markup-text-to-tree reader the
spec's sections 2 and 4.4 assume: attribute-free tags `<t>...</t>` become
element nodes, everything else becomes maximal text leaves; malformed
input degrades without failing.  Returns the parsed nodes and the unread
rest (which starts with a closing tag or is empty). -/
def parseNodes : Nat → List Char → List Dom × List Char
  | 0, cs => ([], cs)
  | _ + 1, [] => ([], [])
  | _ + 1, '<' :: '/' :: rest => ([], '<' :: '/' :: rest)
  | fuel + 1, '<' :: rest =>
      let tag := readTagName rest
      let inner := parseNodes fuel tag.2
      let afterClose :=
        match inner.2 with
        | '<' :: '/' :: r => (readTagName r).2
        | other => other
      let siblings := parseNodes fuel afterClose
      (Dom.el tag.1 inner.1 :: siblings.1, siblings.2)
  | fuel + 1, c :: rest =>
      let siblings := parseNodes fuel (rest.dropWhile (fun d => d ≠ '<'))
      (Dom.txt (c :: rest.takeWhile (fun d => d ≠ '<')) :: siblings.1, siblings.2)

/-- Modelled from the spec: build the detached container element holding
the parsed markup, as `elementFromString(renderedHTML)` does. -/
def elementFromString (s : List Char) : Dom :=
  Dom.el "body" (parseNodes (s.length + 1) s).1

/-- Modelled from the spec: `innerHTML` assignment re-parses the assigned
markup text into the element's children (section 4.4 step 3 splices
whitespace onto the markup text this way). -/
def setInnerHTML (node : Dom) (s : List Char) : Dom :=
  match node with
  | .el tag _ => Dom.el tag (parseNodes (s.length + 1) s).1
  | .txt _ => Dom.txt s

/-- One application of `textContent.replace(/^\n/, '')`: drop a single
leading line-feed when present. -/
def stripLF : List Char → List Char
  | '\n' :: rest => rest
  | s => s

mutual

/-- The newline-artifact stripping of `normalizeDOM` (lines 127-134 of
src/parse/MarkdownParser.js) on one node: descendants are processed with
the pre-context extended when the node itself is a `pre`. -/
def stripNode (inPre : Bool) : Dom → Dom
  | .el tag children => .el tag (stripPairs (inPre || tag == "pre") children)
  | .txt s => .txt s

/-- The stripping pass over a sibling list: for every element whose
immediately following sibling is a text leaf, one leading line-feed is
removed from that leaf unless `el.closest('pre')` holds, i.e. unless the
element is a `pre` or sits inside one. -/
def stripPairs (inPre : Bool) : List Dom → List Dom
  | [] => []
  | .el tag children :: .txt s :: rest =>
      stripNode inPre (.el tag children) ::
        Dom.txt (if inPre || tag == "pre" then s else stripLF s) :: stripPairs inPre rest
  | d :: rest => stripNode inPre d :: stripPairs inPre rest

end

/-- Whether a node is an element whose tag is in the schema's block-tag
set. -/
def isBlockEl (blockTags : List String) : Dom → Bool
  | .el tag _ => blockTags.contains tag
  | .txt _ => false

/-- Helper for block extraction: wrap a nonempty run of non-block children
back into a paragraph container. -/
def wrapRun : List Dom → List Dom
  | [] => []
  | run => [Dom.el "p" run]

/-- Modelled from the spec: `extractElement` of `src/util/dom.js` is not
among the staged source files.  Section 4.4 step 1: block-tagged children
of a paragraph container are relocated to become siblings of the
container, preserving document order; the remaining runs of inline
children stay wrapped in paragraph containers. -/
def splitChildren (blockTags : List String) (run : List Dom) : List Dom → List Dom
  | [] => wrapRun run.reverse
  | d :: rest =>
      if isBlockEl blockTags d then wrapRun run.reverse ++ d :: splitChildren blockTags [] rest
      else splitChildren blockTags (d :: run) rest

/-- One child's contribution to `normalizeBlocks`: an already-processed
paragraph child containing block-tagged elements is split into siblings,
every other child is kept. -/
def nbSplice (blockTags : List String) : Dom → List Dom → List Dom
  | .el tag children2, restDone =>
      if tag = "p" ∧ children2.any (isBlockEl blockTags) then
        splitChildren blockTags [] children2 ++ restDone
      else .el tag children2 :: restDone
  | .txt s, restDone => .txt s :: restDone

mutual

/-- `normalizeBlocks` of src/parse/MarkdownParser.js on one node: find
elements whose tag is in the schema block-tag set and whose parent element
matches `p`, and extract them to sibling position (the extraction itself is
modelled from the spec, `src/util/dom.js` being absent). -/
def nbNode (blockTags : List String) : Dom → Dom
  | .el tag children => .el tag (nbList blockTags children)
  | .txt s => .txt s

/-- `normalizeBlocks` over a sibling list: every child is processed and
then spliced by `nbSplice`. -/
def nbList (blockTags : List String) : List Dom → List Dom
  | [] => []
  | d :: rest => nbSplice blockTags (nbNode blockTags d) (nbList blockTags rest)

end

/-- JavaScript `\s` on the ASCII range: space, tab, line feed, carriage
return, vertical tab, form feed. -/
def jsWhitespace (c : Char) : Bool :=
  c = ' ' || c = '\t' || c = '\n' || c = '\r' || c.toNat = 11 || c.toNat = 12

/-- Whether a node is an element matching the selector `p`. -/
def isP : Dom → Bool
  | .el "p" _ => true
  | _ => false

/-- Whether a node is an element. -/
def isElement : Dom → Bool
  | .el _ _ => true
  | .txt _ => false

/-- `normalizeInline(node, content)` of src/parse/MarkdownParser.js: when
the container's first element child matches `p`, capture the source text's
leading whitespace run, and its trailing run when that paragraph has no
following element sibling; a source starting with two line-feeds keeps the
paragraph and only appends the trailing whitespace inside it; otherwise
the paragraph is unwrapped (children promoted in place) and the captured
whitespace is spliced around the container's markup (`unwrapElement` and
the `innerHTML` assignment are modelled from the spec, `src/util/dom.js`
being absent). -/
def normalizeInline (node : Dom) (content : List Char) : Dom :=
  match node with
  | .txt s => .txt s
  | .el tag children =>
      let before := children.takeWhile (fun d => !isElement d)
      match children.dropWhile (fun d => !isElement d) with
      | [] => .el tag children
      | firstElementChild :: after =>
          if isP firstElementChild then
            let startSpaces := content.takeWhile jsWhitespace
            let endSpaces :=
              if (after.find? isElement).isNone then
                (content.reverse.takeWhile jsWhitespace).reverse
              else []
            if content.take 2 = ['\n', '\n'] then
              .el tag (before ++
                setInnerHTML firstElementChild (innerHTML firstElementChild ++ endSpaces) :: after)
            else
              let unwrapped : List Dom :=
                match firstElementChild with
                | .el _ pChildren => before ++ pChildren ++ after
                | .txt s => before ++ .txt s :: after
              setInnerHTML (Dom.el tag unwrapped)
                (startSpaces ++ serializeList unwrapped ++ endSpaces)
          else .el tag children

/-- The post-render cleanup of `withPatchedRenderer` (lines 217-227 of
src/parse/MarkdownParser.js): the exact output `"\n"` is preserved;
otherwise one trailing line-feed is removed; otherwise the output is
returned unchanged. -/
def patchRendered (rendered : List Char) : List Char :=
  if rendered = ['\n'] then rendered
  else if rendered.getLast? = some '\n' then rendered.dropLast
  else rendered

/-- `withPatchedRenderer(renderFn)` of src/parse/MarkdownParser.js: apply
the render function inside its own try/catch; a thrown render error is
caught here and the input text itself is returned as fallback; a
successful render goes through `patchRendered`. -/
def withPatchedRenderer (renderFn : List Char → Except Unit (List Char))
    (text : List Char) : List Char :=
  match renderFn text with
  | .ok rendered => patchRendered rendered
  | .error _ => text

/-- The `content` argument of `parse`: a string, or any non-string value. -/
inductive Content where
  | str : List Char → Content
  | other : Content
deriving DecidableEq

/-- The state of a `MarkdownParser` instance: destruction flag, the two
render entry points of the external renderer (which may throw, modelled by
`Except Unit`), the registered extensions' `updateDOM` hooks in order, and
the schema-derived block-tag set. -/
structure MarkdownParser where
  destroyed : Bool
  renderFn : List Char → Except Unit (List Char)
  renderInlineFn : List Char → Except Unit (List Char)
  hooks : List (Dom → Except Unit Dom)
  blockTags : List String

/-- Run the extensions' `updateDOM` hooks in order over the tree; the
first thrown error aborts the sequence (it is caught by `parse`). -/
def runHooks : List (Dom → Except Unit Dom) → Dom → Except Unit Dom
  | [], d => .ok d
  | h :: hs, d =>
      match h d with
      | .error e => .error e
      | .ok d2 => runHooks hs d2

/-- `normalizeDOM(node, { inline, content })` of
src/parse/MarkdownParser.js: block extraction, then newline-artifact
stripping over every element, then inline unwrapping when `inline` holds.
Its internal try/catch is dead in this model: every step is total. -/
def normalizeDOM (blockTags : List String) (node : Dom) (inline : Bool)
    (content : List Char) : Dom :=
  let n1 := nbNode blockTags node
  let n2 := stripNode false n1
  if inline then normalizeInline n2 content else n2

/-- `MarkdownParser.parse(content, { inline })`: destroyed parsers and
non-string content return the content unchanged; otherwise the selected
render entry point runs under `withPatchedRenderer`, the result is parsed
into a tree, the hooks run (a hook throw is caught here, falling back to
the original content), the tree is normalized and its `innerHTML` is
returned. -/
def parse (P : MarkdownParser) (content : Content) (inline : Bool) : Content :=
  if P.destroyed then content
  else
    match content with
    | .other => content
    | .str s =>
        let rendered := withPatchedRenderer (if inline then P.renderInlineFn else P.renderFn) s
        let element := elementFromString rendered
        match runHooks P.hooks element with
        | .error _ => content
        | .ok element2 => .str (innerHTML (normalizeDOM P.blockTags element2 inline s))

/-- `MarkdownParser.destroy()`: sets the destruction flag (the reference
nulling it also performs has no observable effect on `parse`, which checks
the flag first). -/
def destroy (P : MarkdownParser) : MarkdownParser :=
  { P with destroyed := true }

/-- A parser whose external renderer throws on every input (the spec's
"renderer stub that throws"), with no extensions registered. -/
def throwingRendererParser : MarkdownParser :=
  ⟨false, fun _ => .error (), fun _ => .error (), [], []⟩

/-- A parser whose renderer succeeds as the identity and whose single
registered `updateDOM` hook throws. -/
def hookThrowParser : MarkdownParser :=
  ⟨false, fun t => .ok t, fun t => .ok t, [fun _ => .error ()], []⟩

/-- C2 counterexample: the claim says a throwing renderer makes `parse`
return the content unchanged, but the renderer's exception is caught
inside `withPatchedRenderer`, which falls back to the raw source text, and
`parse` then continues the pipeline on it: on content `"<b>a</b>\nc"` the
newline-stripping step removes the line-feed after the element, so `parse`
returns `"<b>a</b>c"`, not the original content. -/
theorem parse_renderer_throw_changes_output :
    parse throwingRendererParser (Content.str ("<b>a</b>\nc".data)) false =
      Content.str ("<b>a</b>c".data) ∧
    "<b>a</b>c".data ≠ "<b>a</b>\nc".data := by
  refine ⟨?_, by decide⟩
  rfl

/-- C2 (amended): if any extension's `updateDOM` hook throws during
`parse(content)` on a live parser, `parse` catches it at its boundary and
returns the original content string unchanged; no exception propagates
(every function of this model is total).  Renderer and normalization
errors are caught deeper instead and do not produce this fallback. -/
theorem parse_hook_failure_returns_content (P : MarkdownParser) (s : List Char)
    (inline : Bool) (hd : P.destroyed = false)
    (hh : runHooks P.hooks (elementFromString (withPatchedRenderer
        (if inline then P.renderInlineFn else P.renderFn) s)) = .error ()) :
    parse P (Content.str s) inline = Content.str s := by
  simp only [parse, hd, Bool.false_eq_true, if_false]
  rw [hh]

/-- Witness for the amended C2: a parser with a throwing hook returns
`"anything"` unchanged. -/
theorem parse_hook_failure_witness :
    parse hookThrowParser (Content.str ("anything".data)) false =
      Content.str ("anything".data) :=
  parse_hook_failure_returns_content hookThrowParser ("anything".data) false rfl rfl

/-- C10: once `destroy` has run, `parse` returns any content unchanged,
for every renderer, hook list and block-tag set the parser holds — none of
them can influence the result. -/
theorem parse_after_destroy (P : MarkdownParser) (content : Content) (inline : Bool) :
    parse (destroy P) content inline = content := by
  simp [parse, destroy]

/-- C8: the post-render cleanup keeps the exact output `"\n"` unchanged,
removes exactly the last character from any other output ending in a
line-feed, and keeps every other output unchanged. -/
theorem patchRendered_cases (s : List Char) :
    patchRendered ['\n'] = ['\n'] ∧
    (s ≠ [] → patchRendered (s ++ ['\n']) = s) ∧
    (s.getLast? ≠ some '\n' → patchRendered s = s) := by
  refine ⟨rfl, ?_, ?_⟩
  · intro h
    have hne : s ++ ['\n'] ≠ ['\n'] := by
      intro heq
      apply h
      have hlen := congrArg List.length heq
      simp at hlen
      exact hlen
    unfold patchRendered
    rw [if_neg hne, if_pos (by simp), List.dropLast_concat]
  · intro h
    by_cases he : s = ['\n']
    · subst he
      simp at h
    · unfold patchRendered
      rw [if_neg he, if_neg h]

/-- Witness for C8: a trailing line-feed after "a" is removed; "a" alone is
kept. -/
theorem patchRendered_cases_witness :
    patchRendered ("a".data ++ ['\n']) = "a".data ∧ patchRendered ("a".data) = "a".data :=
  ⟨(patchRendered_cases ("a".data)).2.1 (by decide),
   (patchRendered_cases ("a".data)).2.2 (by decide)⟩

/-- C7: in the newline-stripping pass, an element immediately followed by
a text leaf starting with a line-feed has exactly one leading line-feed
removed from that leaf when the element is neither a `pre` nor inside one,
and the leaf is left untouched when it is. -/
theorem strip_newline_after_element (inPre : Bool) (tag : String) (children : List Dom)
    (s : List Char) (rest : List Dom) :
    (inPre = false → tag ≠ "pre" →
      stripPairs inPre (Dom.el tag children :: Dom.txt ('\n' :: s) :: rest) =
        stripNode inPre (Dom.el tag children) :: Dom.txt s :: stripPairs inPre rest) ∧
    ((inPre = true ∨ tag = "pre") →
      stripPairs inPre (Dom.el tag children :: Dom.txt ('\n' :: s) :: rest) =
        stripNode inPre (Dom.el tag children) :: Dom.txt ('\n' :: s) :: stripPairs inPre rest) := by
  constructor
  · intro h1 h2
    subst h1
    have hb : (tag == "pre") = false := beq_eq_false_iff_ne.mpr h2
    simp [stripPairs, stripNode, hb, stripLF]
  · intro h
    rcases h with h | h
    · subst h
      simp [stripPairs, stripNode]
    · subst h
      simp [stripPairs, stripNode]

/-- Witness for C7: a text leaf starting with a line-feed after a `b`
element becomes "Hello"; after a `pre` element it stays "\nHello". -/
theorem strip_newline_after_element_witness :
    stripPairs false [Dom.el "b" [], Dom.txt ('\n' :: "Hello".data)] =
      [Dom.el "b" [], Dom.txt ("Hello".data)] ∧
    stripPairs false [Dom.el "pre" [], Dom.txt ('\n' :: "Hello".data)] =
      [Dom.el "pre" [], Dom.txt ('\n' :: "Hello".data)] := by
  constructor
  · have h := (strip_newline_after_element false "b" [] ("Hello".data) []).1 rfl (by decide)
    simpa [stripNode, stripPairs] using h
  · have h := (strip_newline_after_element false "pre" [] ("Hello".data) []).2 (Or.inr rfl)
    simpa [stripNode, stripPairs] using h

/-- The block-tag set of the default schema (paragraphs, headings, lists,
blockquote, code block), used to instantiate the inline-unwrap scenario. -/
def defaultBlockTags : List String :=
  ["p", "h1", "h2", "h3", "h4", "h5", "h6", "blockquote", "pre", "ul", "ol", "li"]

/-- C6: parsing the source `"  *hi*  "` with `inline` true, with a
renderer producing the implicit-paragraph markup `"<p><em>hi</em></p>\n"`
for it and no extension hooks, yields `"  <em>hi</em>  "`: the two leading
and two trailing spaces of the source are present and no wrapping
paragraph container remains in the result. -/
theorem parse_inline_whitespace (rif rbf : List Char → Except Unit (List Char))
    (hr : rif ("  *hi*  ".data) = .ok ("<p><em>hi</em></p>\n".data)) :
    parse ⟨false, rbf, rif, [], defaultBlockTags⟩ (Content.str ("  *hi*  ".data)) true =
      Content.str ("  <em>hi</em>  ".data) ∧
    ("  <em>hi</em>  ".data).take 2 = "  ".data ∧
    ("  <em>hi</em>  ".data).drop (("  <em>hi</em>  ".data).length - 2) = "  ".data ∧
    ¬ ("<p>".data <:+: ("  <em>hi</em>  ".data)) := by
  refine ⟨?_, by decide, by decide, by decide⟩
  simp only [parse, withPatchedRenderer, if_true, Bool.false_eq_true, if_false]
  rw [hr]
  decide

/-- Witness for C6 with a constant renderer. -/
theorem parse_inline_whitespace_witness :
    parse ⟨false, fun _ => .ok ("<p><em>hi</em></p>\n".data),
        fun _ => .ok ("<p><em>hi</em></p>\n".data), [], defaultBlockTags⟩
      (Content.str ("  *hi*  ".data)) true = Content.str ("  <em>hi</em>  ".data) ∧
    ("  <em>hi</em>  ".data).take 2 = "  ".data ∧
    ("  <em>hi</em>  ".data).drop (("  <em>hi</em>  ".data).length - 2) = "  ".data ∧
    ¬ ("<p>".data <:+: ("  <em>hi</em>  ".data)) :=
  parse_inline_whitespace (fun _ => .ok ("<p><em>hi</em></p>\n".data))
    (fun _ => .ok ("<p><em>hi</em></p>\n".data)) rfl

/-! Support lemmas for the idempotence of `trimInline` (C9). -/

/-- `text.substring(0, p)` for nonnegative `p` is `take p`. -/
theorem jsSubstring_zero_eq_take (s : List Char) (p : Int) :
    jsSubstring s 0 p = s.take p.toNat := by
  unfold jsSubstring jsClamp
  simp only [Int.toNat_zero, Nat.min_comm 0, Nat.min_zero]
  rw [List.drop_zero]
  exact List.take_eq_take.mpr (by omega)

/-- Length of a clamped substring. -/
theorem jsSubstring_length (s : List Char) (a b : Int) :
    (jsSubstring s a b).length =
      max (jsClamp s.length a) (jsClamp s.length b) -
        min (jsClamp s.length a) (jsClamp s.length b) := by
  unfold jsSubstring jsClamp
  simp only [List.length_drop, List.length_take]
  omega

/-- A backward shift (`offset = -1`) never shortens the text when the
delimiter sits at a position inside it. -/
theorem shiftDelim_neg_length (res delim : List Char) (pos : Int)
    (h1 : 1 ≤ pos) (h2 : pos ≤ (res.length : Int)) :
    res.length ≤ (shiftDelim res delim pos (-1)).length := by
  unfold shiftDelim jsSubstringFrom
  simp only [List.length_append, jsSubstring_length]
  unfold jsClamp
  omega

/-- A forward shift (`offset = 1`) never shortens the text when the
delimiter sits at a position inside it. -/
theorem shiftDelim_pos_length (res delim : List Char) (pos : Int)
    (h1 : 0 ≤ pos) (h2 : pos < (res.length : Int)) :
    res.length ≤ (shiftDelim res delim pos 1).length := by
  unfold shiftDelim jsSubstringFrom
  simp only [List.length_append, jsSubstring_length]
  unfold jsClamp
  omega

/-- A backward shift at `pos` leaves the first `k <= pos` characters
untouched. -/
theorem shiftDelim_neg_take (res delim : List Char) (pos : Int) (k : Nat)
    (h1 : 0 ≤ pos) (h2 : pos ≤ (res.length : Int)) (hk : k ≤ pos.toNat) :
    (shiftDelim res delim pos (-1)).take k = res.take k := by
  unfold shiftDelim
  rw [jsSubstring_zero_eq_take, List.append_assoc, List.append_assoc]
  rw [List.take_append_of_le_length (by simp [List.length_take]; omega)]
  rw [List.take_take, Nat.min_eq_left hk]

/-- The start-pass loop keeps `toPos` strictly inside the text. -/
theorem trimStartLoop_length (delim : List Char) (toPos : Int) (fuel : Nat) :
    ∀ (res : List Char) (pos : Int) (n : Nat), 0 ≤ pos → toPos < (res.length : Int) →
      toPos < ((trimStartLoop delim toPos fuel res pos n).1.length : Int) := by
  induction fuel with
  | zero =>
      intro res pos n _ h
      simpa [trimStartLoop] using h
  | succ fuel ih =>
      intro res pos n h0 h
      rw [trimStartLoop]
      by_cases h1 : pos < toPos
      · rw [if_pos h1]
        by_cases h2 : canDelimiterBeUsed res pos true = true
        · rw [if_pos h2]
          simpa using h
        · rw [if_neg h2]
          have hlen := shiftDelim_pos_length res delim pos h0 (by omega)
          exact ih (shiftDelim res delim pos 1) (pos + 1) (n + 1) (by omega) (by omega)
      · rw [if_neg h1]
        simpa using h

/-- On exit the start-pass loop either broke at a legal opening position
strictly before `toPos`, or `pos` reached `toPos`. -/
theorem trimStartLoop_post (delim : List Char) (toPos : Int) (fuel : Nat) :
    ∀ (res : List Char) (pos : Int) (n : Nat),
      toPos - pos ≤ (fuel : Int) → pos ≤ toPos →
      ((canDelimiterBeUsed (trimStartLoop delim toPos fuel res pos n).1
          (trimStartLoop delim toPos fuel res pos n).2.1 true = true ∧
        (trimStartLoop delim toPos fuel res pos n).2.1 < toPos) ∨
        (trimStartLoop delim toPos fuel res pos n).2.1 = toPos) := by
  induction fuel with
  | zero =>
      intro res pos n hfuel hle
      right
      simpa using (by omega : pos = toPos)
  | succ fuel ih =>
      intro res pos n hfuel hle
      rw [trimStartLoop]
      by_cases h1 : pos < toPos
      · rw [if_pos h1]
        by_cases h2 : canDelimiterBeUsed res pos true = true
        · rw [if_pos h2]
          exact Or.inl ⟨h2, h1⟩
        · rw [if_neg h2]
          exact ih (shiftDelim res delim pos 1) (pos + 1) (n + 1) (by omega) (by omega)
      · rw [if_neg h1]
        right
        simpa using (by omega : pos = toPos)

/-- On exit the end-pass loop either broke at a legal closing position
strictly after `fromPos`, or `pos` reached `fromPos`. -/
theorem trimEndLoop_post (delim : List Char) (fromPos : Int) (fuel : Nat) :
    ∀ (res : List Char) (pos : Int) (n : Nat),
      pos - fromPos ≤ (fuel : Int) → fromPos ≤ pos →
      ((canDelimiterBeUsed (trimEndLoop delim fromPos fuel res pos n).1
          (trimEndLoop delim fromPos fuel res pos n).2.1 false = true ∧
        fromPos < (trimEndLoop delim fromPos fuel res pos n).2.1) ∨
        (trimEndLoop delim fromPos fuel res pos n).2.1 = fromPos) := by
  induction fuel with
  | zero =>
      intro res pos n hfuel hle
      right
      simpa using (by omega : pos = fromPos)
  | succ fuel ih =>
      intro res pos n hfuel hle
      rw [trimEndLoop]
      by_cases h1 : fromPos < pos
      · rw [if_pos h1]
        by_cases h2 : canDelimiterBeUsed res pos false = true
        · rw [if_pos h2]
          exact Or.inl ⟨h2, h1⟩
        · rw [if_neg h2]
          exact ih (shiftDelim res delim pos (-1)) (pos - 1) (n + 1) (by omega) (by omega)
      · rw [if_neg h1]
        right
        simpa using (by omega : pos = fromPos)

/-- The end-pass loop never shortens the text, and when it stops strictly
after `fromPos` every shift happened at positions at least `fromPos + 2`,
so the first `fromPos + 2` characters are untouched. -/
theorem trimEndLoop_prefix (delim : List Char) (fromPos : Int) (fuel : Nat) :
    ∀ (res : List Char) (pos : Int) (n : Nat), 0 ≤ fromPos → pos ≤ (res.length : Int) →
      res.length ≤ (trimEndLoop delim fromPos fuel res pos n).1.length ∧
      (fromPos < (trimEndLoop delim fromPos fuel res pos n).2.1 →
        (trimEndLoop delim fromPos fuel res pos n).1.take (fromPos.toNat + 2) =
          res.take (fromPos.toNat + 2)) := by
  induction fuel with
  | zero =>
      intro res pos n _ _
      exact ⟨by simp [trimEndLoop], fun _ => by simp [trimEndLoop]⟩
  | succ fuel ih =>
      intro res pos n h0 hlen
      rw [trimEndLoop]
      by_cases h1 : fromPos < pos
      · rw [if_pos h1]
        by_cases h2 : canDelimiterBeUsed res pos false = true
        · rw [if_pos h2]
          exact ⟨by simp, fun _ => rfl⟩
        · rw [if_neg h2]
          have hgrow := shiftDelim_neg_length res delim pos (by omega) hlen
          obtain ⟨ihlen, ihtake⟩ :=
            ih (shiftDelim res delim pos (-1)) (pos - 1) (n + 1) h0 (by omega)
          refine ⟨by omega, ?_⟩
          intro hlt
          by_cases hc : fromPos + 2 ≤ pos
          · have htk := shiftDelim_neg_take res delim pos (fromPos.toNat + 2)
              (by omega) hlen (by omega)
            rw [ihtake hlt, htk]
          · exfalso
            have hle2 := (trimEndLoop_le delim fromPos fuel
              (shiftDelim res delim pos (-1)) (pos - 1) (n + 1)).1
            omega
      · rw [if_neg h1]
        exact ⟨by simp, fun _ => rfl⟩

/-- A true flanking check puts the position inside the text. -/
theorem canDelimiterBeUsed_bounds (txt : List Char) (p : Int) (b : Bool)
    (h : canDelimiterBeUsed txt p b = true) :
    0 ≤ p ∧ p < (txt.length : Int) ∧ txt.length ≠ 0 := by
  by_cases hg : txt.length = 0 ∨ p < 0 ∨ (txt.length : Int) ≤ p
  · rw [canDelimiterBeUsed, if_pos hg] at h
    exact absurd h (by simp)
  · push_neg at hg
    exact ⟨by omega, by omega, hg.1⟩

/-- The flanking check at `p` only reads the characters up to index
`p + 1` and whether `p` is an interior position: two texts agreeing on
their first `p + 2` characters and both of length at least `p + 2` give
the same answer. -/
theorem canDelimiterBeUsed_congr (t1 t2 : List Char) (p : Int) (b : Bool)
    (hp : 0 ≤ p) (hl1 : p + 2 ≤ (t1.length : Int)) (hl2 : p + 2 ≤ (t2.length : Int))
    (htake : t1.take (p.toNat + 2) = t2.take (p.toNat + 2)) :
    canDelimiterBeUsed t1 p b = canDelimiterBeUsed t2 p b := by
  have key : ∀ i : Nat, i < p.toNat + 2 → t1.getD i ' ' = t2.getD i ' ' := by
    intro i hi
    rw [List.getD_eq_getElem?_getD t1 i ' ', List.getD_eq_getElem?_getD t2 i ' ']
    rw [← List.getElem?_take_of_lt (l := t1) hi, ← List.getElem?_take_of_lt (l := t2) hi,
      htake]
  have hg1 : ¬(t1.length = 0 ∨ p < 0 ∨ (t1.length : Int) ≤ p) := by omega
  have hg2 : ¬(t2.length = 0 ∨ p < 0 ∨ (t2.length : Int) ≤ p) := by omega
  by_cases hp0 : p = 0
  · rw [canDelimiterBeUsed, if_neg hg1, if_pos hp0,
      canDelimiterBeUsed, if_neg hg2, if_pos hp0]
  · have hl1e : ¬(p = (t1.length : Int) - 1) := by omega
    have hl2e : ¬(p = (t2.length : Int) - 1) := by omega
    rw [canDelimiterBeUsed, if_neg hg1, if_neg hp0, if_neg hl1e,
      canDelimiterBeUsed, if_neg hg2, if_neg hp0, if_neg hl2e]
    rw [key (p - 1).toNat (by omega), key (p + 1).toNat (by omega)]

/-- `trimPasses` written through the two run functions. -/
theorem trimPasses_decomp (text delim : List Char) (f t : Int) :
    trimPasses text delim f t =
      ⟨(trimEndRun (trimStartRun text delim f t).1 delim (trimStartRun text delim f t).2.1 t).1,
        (trimStartRun text delim f t).2.1,
        (trimEndRun (trimStartRun text delim f t).1 delim
          (trimStartRun text delim f t).2.1 t).2.1⟩ := by
  simp [trimPasses, trimStart, trimEnd]

/-- C9: on bounds accepted by `trimInline`'s guard, when the two passes do
not collapse the span (its trimmed width stays at least
`delim.length + 1`), `trimInline` returns the pass-output text, and
re-running `trimInline` on that output with the delimiter positions of the
output as bounds performs no delimiter shift in either pass and returns
its input unchanged. -/
theorem trimInline_idempotent (text delim : List Char) (f t : Int)
    (hne : text.length ≠ 0) (hf : 0 ≤ f) (ht : t < (text.length : Int)) (hft : f < t)
    (hnc : (delim.length : Int) + 1 ≤
      (trimPasses text delim f t).toPos - (trimPasses text delim f t).fromPos) :
    trimInline text delim f t = (trimPasses text delim f t).text ∧
    trimInline (trimPasses text delim f t).text delim (trimPasses text delim f t).fromPos
      (trimPasses text delim f t).toPos = (trimPasses text delim f t).text ∧
    trimStartShifts (trimPasses text delim f t).text delim
      (trimPasses text delim f t).fromPos (trimPasses text delim f t).toPos = 0 ∧
    trimEndShifts (trimPasses text delim f t).text delim
      (trimPasses text delim f t).fromPos (trimPasses text delim f t).toPos = 0 := by
  set r1 := trimStartRun text delim f t with hr1
  set r2 := trimEndRun r1.1 delim r1.2.1 t with hr2
  have hdecomp := trimPasses_decomp text delim f t
  rw [← hr1] at hdecomp
  rw [← hr2] at hdecomp
  set f1 := r1.2.1 with hf1
  set t2 := r2.2.1 with ht2
  have hs2from : (trimPasses text delim f t).fromPos = f1 := by rw [hdecomp]
  have hs2to : (trimPasses text delim f t).toPos = t2 := by rw [hdecomp]
  have hs2text : (trimPasses text delim f t).text = r2.1 := by rw [hdecomp]
  have hcond : ¬((trimPasses text delim f t).toPos - (trimPasses text delim f t).fromPos <
      (delim.length : Int) + 1) := by
    rw [hs2from, hs2to]
    rw [hs2from, hs2to] at hnc
    omega
  rw [hs2from, hs2to] at hnc
  rw [hs2text, hs2from, hs2to]
  have hrun1 : r1 = trimStartLoop delim t (t - f).toNat text f 0 := by
    rw [hr1]
    unfold trimStartRun
    rw [if_neg (by omega)]
  have hmono1 : f ≤ f1 := by
    have h := (trimStartLoop_le delim t (t - f).toNat text f 0).1
    rw [hf1, hrun1]
    exact h
  have hpost1 : (canDelimiterBeUsed r1.1 f1 true = true ∧ f1 < t) ∨ f1 = t := by
    have h := trimStartLoop_post delim t (t - f).toNat text f 0 (by omega) (by omega)
    rw [hf1, hrun1]
    exact h
  have hlen1 : t < (r1.1.length : Int) := by
    have h := trimStartLoop_length delim t (t - f).toNat text f 0 (by omega) (by omega)
    rw [hrun1]
    exact h
  have hfirst : trimInline text delim f t = r2.1 := by
    simp only [trimInline]
    rw [if_neg (show ¬(text.length = 0 ∨ f < 0 ∨ (text.length : Int) ≤ t ∨ t ≤ f) by omega),
      if_neg hcond]
    exact hs2text
  rcases hpost1 with ⟨hcu1, hf1lt⟩ | hf1eq
  · have hrun2 : r2 = trimEndLoop delim f1 (t - f1).toNat r1.1 t 0 := by
      rw [hr2]
      unfold trimEndRun
      rw [if_neg (by omega)]
    have hpost2 : (canDelimiterBeUsed r2.1 t2 false = true ∧ f1 < t2) ∨ t2 = f1 := by
      have h := trimEndLoop_post delim f1 (t - f1).toNat r1.1 t 0 (by omega) (by omega)
      rw [← hrun2, ← ht2] at h
      exact h
    rcases hpost2 with ⟨hcu2, hf1t2⟩ | ht2eq
    · have hpre2 := trimEndLoop_prefix delim f1 (t - f1).toNat r1.1 t 0 (by omega)
        (by omega)
      rw [← hrun2, ← ht2] at hpre2
      obtain ⟨hlen2, htakef⟩ := hpre2
      have htakeeq := htakef hf1t2
      obtain ⟨ht2nn, ht2lt, hlen2ne⟩ := canDelimiterBeUsed_bounds r2.1 t2 false hcu2
      have hcu1' : canDelimiterBeUsed r2.1 f1 true = true := by
        rw [canDelimiterBeUsed_congr r2.1 r1.1 f1 true (by omega) (by omega) (by omega)
          htakeeq]
        exact hcu1
      have hstart2 : trimStartRun r2.1 delim f1 t2 = (r2.1, f1, 0) := by
        unfold trimStartRun
        rw [if_neg (by omega)]
        obtain ⟨m, hm⟩ : ∃ m, (t2 - f1).toNat = m + 1 := ⟨(t2 - f1).toNat - 1, by omega⟩
        rw [hm]
        simp only [trimStartLoop]
        rw [if_pos (show f1 < t2 by omega), if_pos hcu1']
      have hend2 : trimEndRun r2.1 delim f1 t2 = (r2.1, t2, 0) := by
        unfold trimEndRun
        rw [if_neg (by omega)]
        obtain ⟨m, hm⟩ : ∃ m, (t2 - f1).toNat = m + 1 := ⟨(t2 - f1).toNat - 1, by omega⟩
        rw [hm]
        simp only [trimEndLoop]
        rw [if_pos (show f1 < t2 by omega), if_pos hcu2]
      have hpasses2 : trimPasses r2.1 delim f1 t2 = ⟨r2.1, f1, t2⟩ := by
        rw [trimPasses_decomp, hstart2]
        simp [hend2]
      have hcol2 : ¬((trimPasses r2.1 delim f1 t2).toPos -
          (trimPasses r2.1 delim f1 t2).fromPos < (delim.length : Int) + 1) := by
        rw [hpasses2]
        show ¬(t2 - f1 < (delim.length : Int) + 1)
        omega
      have hsecond : trimInline r2.1 delim f1 t2 = r2.1 := by
        simp only [trimInline]
        rw [if_neg (show ¬(r2.1.length = 0 ∨ f1 < 0 ∨ (r2.1.length : Int) ≤ t2 ∨ t2 ≤ f1)
          by omega), if_neg hcol2, hpasses2]
      have hshiftS : trimStartShifts r2.1 delim f1 t2 = 0 := by
        unfold trimStartShifts
        rw [hstart2]
      have hshiftE : trimEndShifts r2.1 delim f1 t2 = 0 := by
        unfold trimEndShifts
        rw [hend2]
      exact ⟨hfirst, hsecond, hshiftS, hshiftE⟩
    · exfalso
      omega
  · exfalso
    have he : r2 = (r1.1, t, 0) := by
      rw [hr2]
      unfold trimEndRun
      rw [if_pos (by omega)]
    have ht2t : t2 = t := by rw [ht2, he]
    omega

/-- Witness for C9 at text "*a *x", delim "*", from 0, to 3: the end pass
shifts once, the passes end at positions 0 and 2 with a span of width 2,
and re-running on the output yields no shift and the same text. -/
theorem trimInline_idempotent_witness :
    trimInline ("*a *x".data) ("*".data) 0 3 = (trimPasses ("*a *x".data) ("*".data) 0 3).text ∧
    trimInline (trimPasses ("*a *x".data) ("*".data) 0 3).text ("*".data)
      (trimPasses ("*a *x".data) ("*".data) 0 3).fromPos
      (trimPasses ("*a *x".data) ("*".data) 0 3).toPos =
      (trimPasses ("*a *x".data) ("*".data) 0 3).text ∧
    trimStartShifts (trimPasses ("*a *x".data) ("*".data) 0 3).text ("*".data)
      (trimPasses ("*a *x".data) ("*".data) 0 3).fromPos
      (trimPasses ("*a *x".data) ("*".data) 0 3).toPos = 0 ∧
    trimEndShifts (trimPasses ("*a *x".data) ("*".data) 0 3).text ("*".data)
      (trimPasses ("*a *x".data) ("*".data) 0 3).fromPos
      (trimPasses ("*a *x".data) ("*".data) 0 3).toPos = 0 :=
  trimInline_idempotent ("*a *x".data) ("*".data) 0 3 (by decide) (by decide) (by decide)
    (by decide) (by decide)

end TiptapMarkdown
